import Mathlib

/-!
Verification of the muniverse-agent training core against its specification.

The Go source is shallowly embedded: pure functions become Lean functions,
stateful methods become explicit state-passing functions, machine integers
become Nat/Int, float comparisons on exactly-representable values become
exact comparisons on ℚ/Int, and fallible operations return Except.
-/

namespace MuniverseAgent

/- ============================================================
   Generic list helpers (used by several embeddings below).
   ============================================================ -/

/-- Length of a flatMap whose blocks all have the same length `m`. -/
theorem length_flatMap_const {α β : Type} (l : List β) (f : β → List α) (m : Nat)
    (hm : ∀ b ∈ l, (f b).length = m) :
    (l.flatMap f).length = l.length * m := by
  induction l with
  | nil => simp
  | cons b bs ih =>
      simp only [List.flatMap_cons, List.length_append, List.length_cons]
      rw [hm b (by simp), ih (fun x hx => hm x (by simp [hx]))]
      ring

/-- Indexing into a flatMap whose blocks all have the same length `m`:
entry `i * m + k` of the result is entry `k` of the block built from the
`i`-th element of `l`. -/
theorem getD_flatMap_const {α β : Type} (d : α) (l : List β) (f : β → List α) (m : Nat)
    (hm : ∀ b ∈ l, (f b).length = m) (i k : Nat) (hi : i < l.length) (hk : k < m) :
    (l.flatMap f).getD (i * m + k) d = (f (l.get ⟨i, hi⟩)).getD k d := by
  induction l generalizing i with
  | nil => simp at hi
  | cons b bs ih =>
      rw [List.flatMap_cons]
      cases i with
      | zero =>
          have hb : (f b).length = m := hm b (by simp)
          rw [List.getD_append]
          · simp
          · omega
      | succ j =>
          have hb : (f b).length = m := hm b (by simp)
          have hlen : (f b).length ≤ (j + 1) * m + k := by
            rw [hb]; nlinarith
          rw [List.getD_append_right _ _ _ _ hlen]
          have hj : j < bs.length := by simpa using hi
          have harith : (j + 1) * m + k - (f b).length = j * m + k := by
            rw [hb]; ring_nf; omega
          rw [harith, ih (fun x hx => hm x (by simp [hx])) j hj]
          rfl

/- ============================================================
   ObsJoiner (source: frame-history joiner, float64 variant).

   Go:
     func joinFrames(hist [][]float64, current []float64) []float64 {
       allFrames := append(append([][]float64{}, hist...), current)
       var res []float64
       for idx := range current {
         for _, frame := range allFrames {
           res = append(res, frame[idx])
         }
       }
       return res
     }
   ============================================================ -/

/-- `joinFrames` from the source: element-wise interleave of the history
frames followed by the current frame.  `frame[idx]` is modelled with `getD`
(the Go code indexes directly; all frames in use have the same length). -/
def joinFrames (hist : List (List ℚ)) (current : List ℚ) : List ℚ :=
  (List.range current.length).flatMap (fun idx =>
    (hist ++ [current]).map (fun frame => frame.getD idx 0))

/-- `ObsJoiner.Reset` from the source: fill the history with `HistorySize`
copies of the given frame. -/
def ObsJoiner.reset (historySize : Nat) (obs : List ℚ) : List (List ℚ) :=
  List.replicate historySize obs

/-- `ObsJoiner.Step` from the source: return the joined observation, then
slide the window (`copy(o.hist, o.hist[1:]); o.hist[len-1] = obs`, guarded
by `len(o.hist) > 0`).  Returns (joined result, new history). -/
def ObsJoiner.step (hist : List (List ℚ)) (obs : List ℚ) :
    List ℚ × List (List ℚ) :=
  (joinFrames hist obs,
    if hist.length > 0 then hist.tail ++ [obs] else hist)

theorem joinFrames_length (hist : List (List ℚ)) (current : List ℚ) :
    (joinFrames hist current).length = current.length * (hist.length + 1) := by
  unfold joinFrames
  rw [length_flatMap_const _ _ (hist.length + 1)]
  · simp
  · intro b _; simp

theorem joinFrames_getD (hist : List (List ℚ)) (current : List ℚ)
    (i k : Nat) (hi : i < current.length) (hk : k < hist.length + 1) :
    (joinFrames hist current).getD (i * (hist.length + 1) + k) 0 =
      ((hist ++ [current]).getD k []).getD i 0 := by
  unfold joinFrames
  have hi' : i < (List.range current.length).length := by simpa using hi
  rw [getD_flatMap_const 0 _ _ (hist.length + 1)
      (fun b _ => by simp) i k hi' hk]
  have hk' : k < (hist ++ [current]).length := by simpa using hk
  have hkm : k < (List.map
      (fun frame => frame.getD ((List.range current.length).get ⟨i, hi'⟩) 0)
      (hist ++ [current])).length := by simpa using hk
  rw [List.getD_eq_getElem _ _ hkm, List.getElem_map,
    List.getD_eq_getElem _ _ hk']
  congr 1
  simp

theorem joinFrames_replicate (H : Nat) (obs : List ℚ) :
    joinFrames (List.replicate H obs) obs =
      obs.flatMap (fun v => List.replicate (H + 1) v) := by
  apply List.ext_getElem
  · rw [joinFrames_length, length_flatMap_const _ _ (H + 1)
      (fun b _ => by simp)]
    simp
  · intro j h1 h2
    have hlen : (joinFrames (List.replicate H obs) obs).length =
        obs.length * (H + 1) := by
      rw [joinFrames_length]; simp
    have hj : j < obs.length * (H + 1) := by rw [← hlen]; exact h1
    have hH : 0 < H + 1 := Nat.succ_pos H
    have hsplit : j = (j / (H + 1)) * (H + 1) + j % (H + 1) := by
      rw [Nat.div_add_mod' j (H + 1)]
    have hi : j / (H + 1) < obs.length := by
      refine Nat.div_lt_of_lt_mul ?_
      rw [Nat.mul_comm]
      exact hj
    have hk : j % (H + 1) < H + 1 := Nat.mod_lt _ hH
    rw [← List.getD_eq_getElem _ 0 h1, ← List.getD_eq_getElem _ 0 h2,
      hsplit]
    have hrepl : (List.replicate H obs).length = H := by simp
    have hmain := joinFrames_getD (List.replicate H obs) obs
      (j / (H + 1)) (j % (H + 1)) hi (by rw [hrepl]; exact hk)
    rw [hrepl] at hmain
    rw [hmain]
    have hflat := getD_flatMap_const 0 obs
      (fun v => List.replicate (H + 1) v) (H + 1) (fun b _ => by simp)
      (j / (H + 1)) (j % (H + 1)) hi hk
    rw [hflat]
    have hall : List.replicate H obs ++ [obs] = List.replicate (H + 1) obs := by
      rw [← List.replicate_succ']
    rw [hall]
    have e1 : (List.replicate (H + 1) obs).getD (j % (H + 1)) [] = obs := by
      rw [List.getD_eq_getElem _ _ (by simpa using hk)]
      simp
    rw [e1]
    simp only
    have e2 : (List.replicate (H + 1)
        (obs.get ⟨j / (H + 1), hi⟩)).getD (j % (H + 1)) 0 =
        obs.get ⟨j / (H + 1), hi⟩ := by
      rw [List.getD_eq_getElem _ _ (by simpa using hk)]
      simp
    rw [e2, List.getD_eq_getElem _ _ hi]
    simp

/-- Claim C2: for an ObsJoiner with HistorySize H, Reset(obs) fills the
history with H copies of obs; Step(obs2) returns the element-wise
interleave of the historical frames followed by the current one (output
index i*(H+1)+k holds element i of frame k) and slides the window by
dropping the oldest frame and appending the new one; Step(obs) right
after Reset(obs) equals H+1 identical copies of obs interleaved. -/
theorem C2_obsJoiner_interleave (H n : Nat) (obs obs2 : List ℚ)
    (hist : List (List ℚ)) (hh : hist.length = H)
    (hobs : obs.length = n) (h2 : obs2.length = n) :
    ObsJoiner.reset H obs = List.replicate H obs ∧
    (ObsJoiner.step hist obs2).2 = (hist ++ [obs2]).tail ∧
    (∀ i k, i < n → k < H + 1 →
      ((ObsJoiner.step hist obs2).1).getD (i * (H + 1) + k) 0 =
        ((hist ++ [obs2]).getD k []).getD i 0) ∧
    (ObsJoiner.step (ObsJoiner.reset H obs) obs).1 =
      obs.flatMap (fun v => List.replicate (H + 1) v) := by
  refine ⟨rfl, ?_, ?_, ?_⟩
  · unfold ObsJoiner.step
    cases hist with
    | nil => simp
    | cons a l => simp
  · intro i k hi hk
    unfold ObsJoiner.step
    have := joinFrames_getD hist obs2 i k (by omega) (by omega)
    rw [hh] at this
    exact this
  · unfold ObsJoiner.step ObsJoiner.reset
    exact joinFrames_replicate H obs

/-- Witness for C2 at H = 2, obs = [1, 2], obs2 = [3, 4]. -/
theorem C2_obsJoiner_interleave_witness :
    (ObsJoiner.step (ObsJoiner.reset 2 [(1 : ℚ), 2]) [1, 2]).1 =
      [1, 1, 1, 2, 2, 2] ∧
    (ObsJoiner.step [[(1 : ℚ), 2], [1, 2]] [3, 4]).2 = [[1, 2], [3, 4]] := by
  have h := C2_obsJoiner_interleave 2 2 [(1 : ℚ), 2] [3, 4]
    [[(1 : ℚ), 2], [1, 2]] rfl rfl rfl
  refine ⟨?_, ?_⟩
  · rw [h.2.2.2]; rfl
  · rw [h.2.1]; rfl

/-- Claim C10: after Reset(obs) the history holds exactly HistorySize
frames, each of the same length n as obs; a Step with an observation of
length n preserves this invariant and returns a joined vector of length
(HistorySize+1)*n. -/
theorem C10_obsJoiner_invariant (H n : Nat) (obs obs2 : List ℚ)
    (hist : List (List ℚ)) (hobs : obs.length = n) (h2 : obs2.length = n)
    (hh : hist.length = H) (hn : ∀ f ∈ hist, f.length = n) :
    ((ObsJoiner.reset H obs).length = H ∧
      ∀ f ∈ ObsJoiner.reset H obs, f.length = n) ∧
    ((ObsJoiner.step hist obs2).2.length = H ∧
      ∀ f ∈ (ObsJoiner.step hist obs2).2, f.length = n) ∧
    (ObsJoiner.step hist obs2).1.length = (H + 1) * n := by
  refine ⟨⟨by simp [ObsJoiner.reset], ?_⟩, ⟨?_, ?_⟩, ?_⟩
  · intro f hf
    rw [List.eq_of_mem_replicate hf]
    exact hobs
  · unfold ObsJoiner.step
    cases hist with
    | nil => simpa using hh
    | cons a l =>
        simp only [List.length_cons] at hh
        simp [← hh]
  · intro f hf
    unfold ObsJoiner.step at hf
    cases hist with
    | nil => simp at hf
    | cons a l =>
        simp only [List.length_cons, List.tail_cons, gt_iff_lt,
          Nat.succ_pos, if_pos, List.mem_append, List.mem_singleton] at hf
        rcases hf with hf | hf
        · exact hn f (List.mem_cons_of_mem a hf)
        · rw [hf]; exact h2
  · unfold ObsJoiner.step
    rw [joinFrames_length, hh, h2]
    ring

/-- Witness for C10 at H = 2, n = 1. -/
theorem C10_obsJoiner_invariant_witness :
    (ObsJoiner.step [[(5 : ℚ)], [6]] [7]).1.length = 3 ∧
    (ObsJoiner.step [[(5 : ℚ)], [6]] [7]).2.length = 2 := by
  have h := C10_obsJoiner_invariant 2 1 [(9 : ℚ)] [7] [[(5 : ℚ)], [6]]
    rfl rfl rfl (by intro f hf; simp at hf; rcases hf with h1 | h1 <;> simp [h1])
  exact ⟨h.2.2, h.2.1.1⟩

/- ============================================================
   DownsampleObserver (source: observer with strided downsampling).

   Go ObsSize:
     depth = 1; if d.Color { depth = 3 }
     width = d.InWidth / d.StrideX
     if d.InWidth % d.StrideX != 0 { width += 1 }
     height analogously.

   Go ObsVec (loop structure):
     for y := 0; y < d.InHeight; y += d.StrideY {
       for x := 0; x < d.InWidth; x += d.StrideX {
         sourceIdx := (y*d.InWidth + x) * 3
         if d.Color { append the three channel bytes }
         else { append Round((r+g+b)/3) } } }
   ============================================================ -/

structure DownsampleObserver where
  StrideX : Nat
  StrideY : Nat
  InWidth : Nat
  InHeight : Nat
  Color : Bool

/-- The index sequence of a Go loop `for p := pos; p < limit; p += stride`.
The `0 < stride` guard mirrors the fact that the Go loop only terminates
for positive strides. -/
def strideIndices (stride limit pos : Nat) : List Nat :=
  if h : 0 < stride ∧ pos < limit then
    pos :: strideIndices stride limit (pos + stride)
  else []
termination_by limit - pos
decreasing_by omega

/-- `DownsampleObserver.ObsSize` from the source. -/
def DownsampleObserver.ObsSize (d : DownsampleObserver) : Nat × Nat × Nat :=
  let depth := if d.Color then 3 else 1
  let width := d.InWidth / d.StrideX +
    (if d.InWidth % d.StrideX ≠ 0 then 1 else 0)
  let height := d.InHeight / d.StrideY +
    (if d.InHeight % d.StrideY ≠ 0 then 1 else 0)
  (width, height, depth)

/-- `essentials.Round(s / 3)` for a nonnegative integer sum `s` of three
bytes: round-to-nearest of `s/3`, i.e. `⌊s/3 + 1/2⌋ = (2*s + 3) / 6`. -/
def roundMeanOf3 (s : Nat) : Nat := (2 * s + 3) / 6

/-- The cell list `ObsVec` appends for the pixel at `(x, y)`; `sourceIdx`
from the source is inlined as `(y * InWidth + x) * 3`. -/
def obsCell (color : Bool) (inWidth : Nat) (buffer : Nat → Nat) (y x : Nat) :
    List Nat :=
  if color then
    [buffer ((y * inWidth + x) * 3), buffer ((y * inWidth + x) * 3 + 1),
      buffer ((y * inWidth + x) * 3 + 2)]
  else
    [roundMeanOf3 (buffer ((y * inWidth + x) * 3) +
      buffer ((y * inWidth + x) * 3 + 1) + buffer ((y * inWidth + x) * 3 + 2))]

/-- `DownsampleObserver.ObsVec` from the source.  The RGB pixel buffer is
modelled as a function from byte index to byte value (the Go code indexes
a `[]uint8` of size `InWidth*InHeight*3`). -/
def DownsampleObserver.ObsVec (d : DownsampleObserver) (buffer : Nat → Nat) :
    List Nat :=
  (strideIndices d.StrideY d.InHeight 0).flatMap (fun y =>
    (strideIndices d.StrideX d.InWidth 0).flatMap
      (obsCell d.Color d.InWidth buffer y))

theorem strideIndices_length (stride limit pos : Nat) (hs : 0 < stride) :
    (strideIndices stride limit pos).length =
      (limit - pos + (stride - 1)) / stride := by
  rw [strideIndices]
  by_cases h : pos < limit
  · rw [dif_pos ⟨hs, h⟩]
    simp only [List.length_cons]
    rw [strideIndices_length stride limit (pos + stride) hs]
    have ha : 1 ≤ limit - pos := by omega
    by_cases hcase : stride ≤ limit - pos
    · have e1 : limit - pos + (stride - 1) =
          (limit - (pos + stride) + (stride - 1)) + stride := by omega
      rw [e1, Nat.add_div_right _ hs]
    · have e1 : limit - (pos + stride) = 0 := by omega
      have e2 : limit - pos + (stride - 1) = (limit - pos - 1) + stride := by
        omega
      rw [e1, e2, Nat.add_div_right _ hs, Nat.div_eq_of_lt (by omega),
        Nat.div_eq_of_lt (by omega)]
  · rw [dif_neg (by omega)]
    have e1 : limit - pos = 0 := by omega
    rw [e1, List.length_nil, Nat.zero_add, Nat.div_eq_of_lt (by omega)]
termination_by limit - pos
decreasing_by omega

theorem strideIndices_getD (stride limit pos : Nat) (hs : 0 < stride)
    (j : Nat) (hj : j < (strideIndices stride limit pos).length) :
    (strideIndices stride limit pos).getD j 0 = pos + j * stride := by
  rw [strideIndices] at hj ⊢
  by_cases h : pos < limit
  · rw [dif_pos ⟨hs, h⟩] at hj ⊢
    cases j with
    | zero => simp
    | succ i =>
        simp only [List.length_cons, Nat.succ_lt_succ_iff] at hj
        simp only [List.getD_cons_succ]
        rw [strideIndices_getD stride limit (pos + stride) hs i hj]
        ring
  · rw [dif_neg (by omega)] at hj
    simp at hj
termination_by limit - pos
decreasing_by omega

/-- Ceiling division written the way `ObsSize` computes it agrees with
`(n + s - 1) / s`. -/
theorem div_ceil_eq (n s : Nat) (hs : 0 < s) :
    n / s + (if n % s ≠ 0 then 1 else 0) = (n + (s - 1)) / s := by
  have hdm := Nat.div_add_mod n s
  have hr : n % s < s := Nat.mod_lt n hs
  by_cases h : n % s = 0
  · have e1 : n + (s - 1) = s * (n / s) + (s - 1) := by omega
    have e2 : (s - 1) / s = 0 := Nat.div_eq_of_lt (by omega)
    rw [e1, Nat.mul_add_div hs, e2]
    simp [h]
  · have hmul : s * (n / s + 1) = s * (n / s) + s := by ring
    have e1 : n + (s - 1) = s * (n / s + 1) + (n % s - 1) := by omega
    have e2 : (n % s - 1) / s = 0 := Nat.div_eq_of_lt (by omega)
    rw [e1, Nat.mul_add_div hs, e2]
    simp [h]


theorem ObsSize_eval (d : DownsampleObserver) (hx : 0 < d.StrideX)
    (hy : 0 < d.StrideY) :
    d.ObsSize = ((d.InWidth + (d.StrideX - 1)) / d.StrideX,
      (d.InHeight + (d.StrideY - 1)) / d.StrideY,
      if d.Color then 3 else 1) := by
  simp only [DownsampleObserver.ObsSize]
  rw [div_ceil_eq _ _ hx, div_ceil_eq _ _ hy]

theorem obsCell_length (color : Bool) (inWidth : Nat) (buffer : Nat → Nat)
    (y x : Nat) :
    (obsCell color inWidth buffer y x).length = if color then 3 else 1 := by
  unfold obsCell
  cases color <;> simp

theorem obsVec_length (d : DownsampleObserver) (hx : 0 < d.StrideX)
    (hy : 0 < d.StrideY) (buffer : Nat → Nat) :
    (d.ObsVec buffer).length =
      d.ObsSize.1 * d.ObsSize.2.1 * d.ObsSize.2.2 := by
  unfold DownsampleObserver.ObsVec
  rw [length_flatMap_const _ _
    ((strideIndices d.StrideX d.InWidth 0).length * (if d.Color then 3 else 1))
    (fun y _ => length_flatMap_const _ _ _
      (fun x _ => obsCell_length d.Color d.InWidth buffer y x))]
  rw [strideIndices_length _ _ _ hx, strideIndices_length _ _ _ hy,
    ObsSize_eval d hx hy]
  simp only [Nat.sub_zero]
  ring

/-- Claim C3: `ObsSize` equals the ceiling-division formula with depth
1 (grayscale) or 3 (color); the 4/4/64/64 grayscale configuration yields
(16,16,1); `ObsVec` has exactly width*height*depth entries; and in
grayscale mode the entry for stride cell (i,j) is the rounded mean of the
three RGB bytes of the cell's top-left pixel. -/
theorem C3_downsample_observer (d : DownsampleObserver) (hx : 0 < d.StrideX)
    (hy : 0 < d.StrideY) :
    d.ObsSize = ((d.InWidth + (d.StrideX - 1)) / d.StrideX,
      (d.InHeight + (d.StrideY - 1)) / d.StrideY,
      if d.Color then 3 else 1) ∧
    DownsampleObserver.ObsSize ⟨4, 4, 64, 64, false⟩ = (16, 16, 1) ∧
    (∀ buffer : Nat → Nat, (d.ObsVec buffer).length =
      d.ObsSize.1 * d.ObsSize.2.1 * d.ObsSize.2.2) ∧
    (d.Color = false → ∀ (buffer : Nat → Nat) (i j : Nat),
      i < d.ObsSize.1 → j < d.ObsSize.2.1 →
      (d.ObsVec buffer).getD (j * d.ObsSize.1 + i) 0 =
        roundMeanOf3
          (buffer ((j * d.StrideY * d.InWidth + i * d.StrideX) * 3) +
           buffer ((j * d.StrideY * d.InWidth + i * d.StrideX) * 3 + 1) +
           buffer ((j * d.StrideY * d.InWidth + i * d.StrideX) * 3 + 2))) := by
  refine ⟨ObsSize_eval d hx hy, by decide, obsVec_length d hx hy, ?_⟩
  intro hc buffer i j hi hj
  have hwidth : d.ObsSize.1 = (strideIndices d.StrideX d.InWidth 0).length := by
    rw [strideIndices_length _ _ _ hx, ObsSize_eval d hx hy]
    simp
  have hheight : d.ObsSize.2.1 =
      (strideIndices d.StrideY d.InHeight 0).length := by
    rw [strideIndices_length _ _ _ hy, ObsSize_eval d hx hy]
    simp
  unfold DownsampleObserver.ObsVec
  set rows := strideIndices d.StrideY d.InHeight 0 with hrows
  set cols := strideIndices d.StrideX d.InWidth 0 with hcols
  have hj' : j < rows.length := by rw [← hheight]; exact hj
  have hi' : i < cols.length := by rw [← hwidth]; exact hi
  have hrowlen : ∀ b ∈ rows,
      (cols.flatMap (obsCell d.Color d.InWidth buffer b)).length =
        cols.length * 1 := by
    intro b _
    refine length_flatMap_const _ _ 1 (fun x _ => ?_)
    rw [obsCell_length, hc]
    simp
  have hidx : j * d.ObsSize.1 + i = j * (cols.length * 1) + i := by
    rw [hwidth]; ring
  rw [hidx]
  rw [getD_flatMap_const 0 rows _ (cols.length * 1) hrowlen j i hj'
    (by omega)]
  have h1 : i = i * 1 + 0 := by omega
  rw [h1, getD_flatMap_const 0 cols _ 1
    (fun x _ => by rw [obsCell_length, hc]; simp) i 0 hi' (by omega)]
  have hrowval : rows.get ⟨j, hj'⟩ = j * d.StrideY := by
    rw [← List.getD_eq_get _ 0 hj', hrows, strideIndices_getD _ _ _ hy j hj']
    omega
  have hcolval : cols.get ⟨i, hi'⟩ = i * d.StrideX := by
    rw [← List.getD_eq_get _ 0 hi', hcols, strideIndices_getD _ _ _ hx i hi']
    omega
  rw [hrowval, hcolval]
  unfold obsCell
  rw [hc]
  simp

/-- Witness for C3 at the 4/4/64/64 grayscale configuration, with a
constant buffer of value 10 (rounded mean 10). -/
theorem C3_downsample_observer_witness :
    (DownsampleObserver.ObsVec ⟨4, 4, 64, 64, false⟩ (fun _ => 10)).length =
      16 * 16 * 1 ∧
    (DownsampleObserver.ObsVec ⟨4, 4, 64, 64, false⟩
      (fun _ => 10)).getD (1 * 16 + 2) 0 = 10 := by
  have h := C3_downsample_observer ⟨4, 4, 64, 64, false⟩
    (by decide) (by decide)
  constructor
  · rw [h.2.2.1 (fun _ => 10)]
    rfl
  · have h4 := h.2.2.2 rfl (fun _ => 10) 2 1 (by decide) (by decide)
    have e : (1 * 16 + 2 : Nat) = 1 * (DownsampleObserver.ObsSize
        ⟨4, 4, 64, 64, false⟩).1 + 2 := by decide
    rw [e, h4]
    rfl

/- ============================================================
   KeyActor (source: key-press actor, plain []float64 variant).

   Go Events:
     for i, keyName := range k.Keys {
       press := vec[i] > 0.5
       if k.NoHold && press {
         emit key-down then key-up for keyName
       } else if !k.NoHold && press != k.pressed[keyName] {
         k.pressed[keyName] = press
         emit key-down if press else key-up
       }
     }
   ============================================================ -/

inductive KeyEventType where
  | keyDown : KeyEventType
  | keyUp : KeyEventType
deriving DecidableEq, Repr

structure KeyEvent where
  code : String
  type : KeyEventType
deriving DecidableEq, Repr

/-- The pressed-bit of component `i` of an action vector: `vec[i] > 0.5`. -/
def pressBit (vec : List ℚ) (i : Nat) : Bool :=
  decide ((1 : ℚ)/2 < vec.getD i 0)

/-- `KeyActor.Events` from the source, recursing over the keys (component
`i` of the original vector becomes the head of the shrinking vector).
The `pressed` map is modelled as a function with default `false` (Go map
lookup of a missing key).  Returns (events, new pressed map). -/
def keyActorEvents (noHold : Bool) :
    List String → List ℚ → (String → Bool) → List KeyEvent × (String → Bool)
  | [], _, pressed => ([], pressed)
  | k :: ks, vec, pressed =>
    let press := pressBit vec 0
    if noHold && press then
      let rest := keyActorEvents noHold ks vec.tail pressed
      (⟨k, .keyDown⟩ :: ⟨k, .keyUp⟩ :: rest.1, rest.2)
    else if !noHold && press != pressed k then
      let p1 : String → Bool := fun s => if s = k then press else pressed s
      let rest := keyActorEvents noHold ks vec.tail p1
      (⟨k, if press then .keyDown else .keyUp⟩ :: rest.1, rest.2)
    else
      keyActorEvents noHold ks vec.tail pressed

/-- `KeyActor.Reset` from the source: clear the pressed map. -/
def keyActorReset : String → Bool := fun _ => false

theorem keyActorEvents_untouched (noHold : Bool) (keys : List String)
    (vec : List ℚ) (pressed : String → Bool) (s : String) (hs : s ∉ keys) :
    (keyActorEvents noHold keys vec pressed).2 s = pressed s := by
  induction keys generalizing vec pressed with
  | nil => rfl
  | cons k ks ih =>
      have hsk : s ≠ k := fun h => hs (h ▸ List.mem_cons_self k ks)
      have hsks : s ∉ ks := fun h => hs (List.mem_cons_of_mem k h)
      unfold keyActorEvents
      by_cases h1 : noHold && pressBit vec 0
      · rw [if_pos h1]
        exact ih vec.tail pressed hsks
      · rw [if_neg h1]
        by_cases h2 : !noHold && (pressBit vec 0 != pressed k)
        · rw [if_pos h2]
          simp only
          rw [ih]
          · simp [hsk]
          · exact hsks
        · rw [if_neg h2]
          exact ih vec.tail pressed hsks

theorem keyActorEvents_true_cons (k : String) (ks : List String)
    (vec : List ℚ) (pressed : String → Bool) :
    keyActorEvents true (k :: ks) vec pressed =
      (if pressBit vec 0 then
        (⟨k, .keyDown⟩ :: ⟨k, .keyUp⟩ ::
          (keyActorEvents true ks vec.tail pressed).1,
          (keyActorEvents true ks vec.tail pressed).2)
      else keyActorEvents true ks vec.tail pressed) := by
  conv_lhs => rw [keyActorEvents.eq_2]
  by_cases h : pressBit vec 0 <;> simp [h]

theorem keyActorEvents_false_cons (k : String) (ks : List String)
    (vec : List ℚ) (pressed : String → Bool) :
    keyActorEvents false (k :: ks) vec pressed =
      (if pressBit vec 0 != pressed k then
        (⟨k, if pressBit vec 0 then .keyDown else .keyUp⟩ ::
          (keyActorEvents false ks vec.tail
            (fun s => if s = k then pressBit vec 0 else pressed s)).1,
          (keyActorEvents false ks vec.tail
            (fun s => if s = k then pressBit vec 0 else pressed s)).2)
      else keyActorEvents false ks vec.tail pressed) := by
  conv_lhs => rw [keyActorEvents.eq_2]
  by_cases h : pressBit vec 0 != pressed k <;> simp [h]

theorem pressBit_tail (vec : List ℚ) (n : Nat) :
    pressBit vec (n + 1) = pressBit vec.tail n := by
  unfold pressBit
  cases vec with
  | nil => simp
  | cons v vs => simp

theorem keyActorEvents_state (keys : List String) (vec : List ℚ)
    (pressed : String → Bool) (hnd : keys.Nodup)
    (i : Nat) (hi : i < keys.length) :
    (keyActorEvents false keys vec pressed).2 (keys.get ⟨i, hi⟩) =
      pressBit vec i := by
  induction keys generalizing vec pressed i with
  | nil => simp at hi
  | cons k ks ih =>
      have hknotin : k ∉ ks := (List.nodup_cons.mp hnd).1
      have hndks : ks.Nodup := (List.nodup_cons.mp hnd).2
      rw [keyActorEvents_false_cons]
      cases i with
      | zero =>
          simp only [List.get]
          by_cases h2 : pressBit vec 0 != pressed k
          · rw [if_pos h2]
            simp only
            rw [keyActorEvents_untouched false ks vec.tail _ k hknotin]
            simp
          · rw [if_neg h2]
            rw [keyActorEvents_untouched false ks vec.tail pressed k hknotin]
            simp only [bne_iff_ne, ne_eq, not_not] at h2
            exact h2.symm
      | succ n =>
          have hn : n < ks.length := by simpa using hi
          have hget : (k :: ks).get ⟨n + 1, hi⟩ = ks.get ⟨n, hn⟩ := rfl
          rw [hget, pressBit_tail]
          by_cases h2 : pressBit vec 0 != pressed k
          · rw [if_pos h2]
            exact ih vec.tail _ hndks n hn
          · rw [if_neg h2]
            exact ih vec.tail pressed hndks n hn

/-- If every component's pressed-bit already agrees with the stored map,
the NoHold=false actor emits nothing and leaves the map unchanged. -/
theorem keyActorEvents_no_transition (keys : List String) (vec : List ℚ)
    (pressed : String → Bool)
    (hagree : ∀ i (hi : i < keys.length),
      pressBit vec i = pressed (keys.get ⟨i, hi⟩)) :
    keyActorEvents false keys vec pressed = ([], pressed) := by
  induction keys generalizing vec pressed with
  | nil => rfl
  | cons k ks ih =>
      have h0 : pressBit vec 0 = pressed k := hagree 0 (by simp)
      rw [keyActorEvents_false_cons, if_neg (by simp [h0])]
      refine ih vec.tail pressed (fun i hi => ?_)
      have := hagree (i + 1) (by simpa using hi)
      rw [pressBit_tail] at this
      exact this

/-- NoHold = true: each call emits down-then-up for exactly the keys whose
component exceeds 0.5, and never touches the pressed map. -/
theorem keyActorEvents_noHold (keys : List String) (vec : List ℚ)
    (pressed : String → Bool) :
    keyActorEvents true keys vec pressed =
      ((keys.zip vec).flatMap (fun kv =>
        if (1 : ℚ)/2 < kv.2 then
          [⟨kv.1, KeyEventType.keyDown⟩, ⟨kv.1, KeyEventType.keyUp⟩]
        else []), pressed) := by
  induction keys generalizing vec with
  | nil => rfl
  | cons k ks ih =>
      cases vec with
      | nil =>
          rw [keyActorEvents_true_cons]
          have h0 : pressBit [] 0 = false := by unfold pressBit; simp
          rw [h0, if_neg (by simp)]
          simp only [List.tail_nil]
          rw [ih []]
          simp
      | cons v vs =>
          rw [keyActorEvents_true_cons]
          have h0 : pressBit (v :: vs) 0 = decide ((1 : ℚ)/2 < v) := by
            unfold pressBit; simp
          simp only [List.zip_cons_cons, List.flatMap_cons, List.tail_cons, h0]
          by_cases hv : (1 : ℚ)/2 < v
          · rw [if_pos (by simpa using hv), if_pos hv, ih vs]
            simp
          · rw [if_neg (by simpa using hv), if_neg hv, ih vs]
            simp

/-- NoHold = false: toggling exactly one key's pressed-bit between two
calls makes the second call emit exactly one event. -/
theorem keyActorEvents_toggle (keys : List String) (vec vec2 : List ℚ)
    (pressed : String → Bool) (hnd : keys.Nodup) (j : Nat)
    (hj : j < keys.length)
    (hsame : ∀ i, i ≠ j → pressBit vec i = pressBit vec2 i)
    (hdiff : pressBit vec j ≠ pressBit vec2 j) :
    (keyActorEvents false keys vec2
      ((keyActorEvents false keys vec pressed).2)).1.length = 1 := by
  induction keys generalizing vec vec2 pressed j with
  | nil => simp at hj
  | cons k ks ih =>
      have hknotin : k ∉ ks := (List.nodup_cons.mp hnd).1
      have hndks : ks.Nodup := (List.nodup_cons.mp hnd).2
      set p1 := (keyActorEvents false (k :: ks) vec pressed).2 with hp1
      have hp1k : p1 k = pressBit vec 0 :=
        keyActorEvents_state (k :: ks) vec pressed hnd 0 (by simp)
      cases j with
      | zero =>
          rw [keyActorEvents_false_cons]
          rw [if_pos (by simp [hp1k]; exact fun h => hdiff h.symm)]
          simp only [List.length_cons]
          have hrest : keyActorEvents false ks vec2.tail
              (fun s => if s = k then pressBit vec2 0 else p1 s) =
              ([], fun s => if s = k then pressBit vec2 0 else p1 s) := by
            refine keyActorEvents_no_transition _ _ _ (fun i hi => ?_)
            have hne : ks.get ⟨i, hi⟩ ≠ k := by
              intro h
              exact hknotin (h ▸ List.get_mem ks i hi)
            rw [if_neg hne]
            have hstate := keyActorEvents_state (k :: ks) vec pressed hnd
              (i + 1) (by simpa using hi)
            have hget : (k :: ks).get ⟨i + 1, by simpa using hi⟩ =
                ks.get ⟨i, hi⟩ := rfl
            rw [hget] at hstate
            rw [← hp1] at hstate
            rw [hstate, hsame (i + 1) (by omega), pressBit_tail]
          rw [hrest]
          simp
      | succ n =>
          have hn : n < ks.length := by simpa using hj
          have hsame2 : ∀ i, i ≠ n → pressBit vec.tail i = pressBit vec2.tail i := by
            intro i hi2
            rw [← pressBit_tail, ← pressBit_tail]
            exact hsame (i + 1) (by omega)
          have hdiff2 : pressBit vec.tail n ≠ pressBit vec2.tail n := by
            rw [← pressBit_tail, ← pressBit_tail]
            exact hdiff
          have h0 : pressBit vec2 0 = p1 k := by
            rw [hp1k]
            exact (hsame 0 (by omega)).symm
          rw [keyActorEvents_false_cons, if_neg (by simp [h0])]
          rw [hp1, keyActorEvents_false_cons]
          by_cases hb : pressBit vec 0 != pressed k
          · rw [if_pos hb]
            exact ih vec.tail vec2.tail _ hndks n hn hsame2 hdiff2
          · rw [if_neg hb]
            exact ih vec.tail vec2.tail pressed hndks n hn hsame2 hdiff2

/-- Claim C4: with NoHold = true, each Events call emits a key-down
immediately followed by a key-up for every key whose component exceeds
0.5 and nothing else (in particular keys ["Left","Right"] with vector
[0.9, 0.1] emit down then up for "Left" only); with NoHold = false an
event is emitted only on a pressed-state transition, so repeating the
same vector emits nothing on the second call and toggling one key's bit
emits exactly one event. -/
theorem C4_keyActor_events (keys : List String) (vec : List ℚ)
    (pressed : String → Bool) :
    (keyActorEvents true keys vec pressed =
      ((keys.zip vec).flatMap (fun kv =>
        if (1 : ℚ)/2 < kv.2 then
          [⟨kv.1, KeyEventType.keyDown⟩, ⟨kv.1, KeyEventType.keyUp⟩]
        else []), pressed)) ∧
    keyActorEvents true ["Left", "Right"] [9/10, 1/10] keyActorReset =
      ([⟨"Left", KeyEventType.keyDown⟩, ⟨"Left", KeyEventType.keyUp⟩],
        keyActorReset) ∧
    (keys.Nodup →
      (keyActorEvents false keys vec
        ((keyActorEvents false keys vec pressed).2)).1 = [] ∧
      (∀ (vec2 : List ℚ) (j : Nat), j < keys.length →
        (∀ i, i ≠ j → pressBit vec i = pressBit vec2 i) →
        pressBit vec j ≠ pressBit vec2 j →
        (keyActorEvents false keys vec2
          ((keyActorEvents false keys vec pressed).2)).1.length = 1)) := by
  refine ⟨keyActorEvents_noHold keys vec pressed, ?_, ?_⟩
  · rw [keyActorEvents_noHold]
    norm_num
  · intro hnd
    constructor
    · have h := keyActorEvents_no_transition keys vec
        ((keyActorEvents false keys vec pressed).2)
        (fun i hi => (keyActorEvents_state keys vec pressed hnd i hi).symm)
      rw [h]
    · intro vec2 j hj hsame hdiff
      exact keyActorEvents_toggle keys vec vec2 pressed hnd j hj hsame hdiff

/-- Witness for C4 with keys ["Left","Right"], first vector [0.9, 0.1]
and toggled vector [0.9, 0.9]. -/
theorem C4_keyActor_events_witness :
    (keyActorEvents false ["Left", "Right"] [9/10, 1/10]
      ((keyActorEvents false ["Left", "Right"] [9/10, 1/10]
        keyActorReset).2)).1 = [] ∧
    (keyActorEvents false ["Left", "Right"] [9/10, 9/10]
      ((keyActorEvents false ["Left", "Right"] [9/10, 1/10]
        keyActorReset).2)).1.length = 1 := by
  have h := (C4_keyActor_events ["Left", "Right"] [9/10, 1/10]
    keyActorReset).2.2 (by simp)
  refine ⟨h.1, h.2 [9/10, 9/10] 1 (by simp) ?_ ?_⟩
  · intro i hi
    match i with
    | 0 => rfl
    | 1 => exact absurd rfl hi
    | n + 2 => rfl
  · unfold pressBit
    norm_num

/- ============================================================
   Env (source: env.go).

   Go Step (relevant part):
     reward, done, err = e.RawEnv.Step(e.FrameTime, events...)
     ... observe, vectorize ...
     e.timestep++
     if e.timestep >= e.MaxSteps { done = true }

   Go Reset:
     defer essentials.AddCtxTo("reset", &err)
     e.Actor.Reset()
     e.timestep = 0
     ... RawEnv.Reset, RawEnv.Observe, Observer.ObsVec ...
   ============================================================ -/

/-- One `Env.Step` call, restricted to the step counter and done flag:
given the counter value before the call and the raw done flag reported by
the wrapped environment, return the done flag handed to the caller and
the new counter. -/
def envStepOnce (maxSteps timestep : Nat) (rawDone : Bool) : Bool × Nat :=
  let t := timestep + 1
  (rawDone || decide (t ≥ maxSteps), t)

/-- `e.timestep = 0` performed by `Env.Reset`. -/
def envResetTimestep (_timestep : Nat) : Nat := 0

/-- The done flags returned by a run of successful `Env.Step` calls whose
raw done flags are `rawDones`, starting from counter `timestep`. -/
def envStepsFrom (maxSteps timestep : Nat) : List Bool → List Bool
  | [] => []
  | rd :: rest =>
    let r := envStepOnce maxSteps timestep rd
    r.1 :: envStepsFrom maxSteps r.2 rest

theorem envStepsFrom_getD (maxSteps timestep : Nat) (rawDones : List Bool)
    (k : Nat) (hk : k < rawDones.length) :
    (envStepsFrom maxSteps timestep rawDones).getD k false =
      (rawDones.getD k false ||
        decide (timestep + k + 1 ≥ maxSteps)) := by
  induction rawDones generalizing timestep k with
  | nil => simp at hk
  | cons rd rest ih =>
      cases k with
      | zero => simp [envStepsFrom, envStepOnce]
      | succ n =>
          have hn : n < rest.length := by simpa using hk
          simp only [envStepsFrom, envStepOnce, List.getD_cons_succ]
          rw [ih (timestep + 1) n hn]
          have e : timestep + 1 + n + 1 = timestep + (n + 1) + 1 := by omega
          rw [e]

/-- Claim C1: with MaxSteps = M >= 1, after a Reset the M-th successful
Step returns done = true even when the raw environment reported false,
every earlier successful Step returns the raw done flag unchanged, and
Reset restarts the counter at 0 so the cap applies per episode. -/
theorem C1_env_step_cap (M : Nat) (hM : 1 ≤ M) (rawDones : List Bool)
    (t : Nat) :
    ((M - 1 < rawDones.length →
      (envStepsFrom M (envResetTimestep t) rawDones).getD (M - 1) false =
        true) ∧
    (∀ k, k + 1 < M → k < rawDones.length →
      (envStepsFrom M (envResetTimestep t) rawDones).getD k false =
        rawDones.getD k false)) ∧
    envResetTimestep t = 0 := by
  refine ⟨⟨?_, ?_⟩, rfl⟩
  · intro hlen
    rw [envStepsFrom_getD M _ rawDones (M - 1) hlen]
    have : (envResetTimestep t) + (M - 1) + 1 ≥ M := by
      unfold envResetTimestep
      omega
    simp [this]
  · intro k hkM hk
    rw [envStepsFrom_getD M _ rawDones k hk]
    have : ¬((envResetTimestep t) + k + 1 ≥ M) := by
      unfold envResetTimestep
      omega
    simp [this]

/-- Witness for C1: M = 3, raw done flags [false, true, false]; the first
step reports the raw flag, the third is forced to true. -/
theorem C1_env_step_cap_witness :
    (envStepsFrom 3 (envResetTimestep 7) [false, true, false]).getD 2 false =
      true ∧
    (envStepsFrom 3 (envResetTimestep 7) [false, true, false]).getD 0 false =
      false := by
  have h := C1_env_step_cap 3 (by omega) [false, true, false] 7
  exact ⟨h.1.1 (by simp), h.1.2 0 (by omega) (by simp)⟩

/- ============================================================
   Env error propagation (source: env.go Reset and Step).

   Reset has `defer essentials.AddCtxTo("reset", &err)`, which prefixes
   any non-nil returned error with "reset: ".  Step has no such deferred
   annotation: errors from RawEnv.Step, RawEnv.Observe and
   Observer.ObsVec are returned to the caller unchanged.
   ============================================================ -/

/-- `essentials.AddCtxTo(ctx, &err)`: prefix a non-nil error. -/
def addCtx (ctx : String) : Except String α → Except String α
  | Except.error e => Except.error (ctx ++ ": " ++ e)
  | Except.ok a => Except.ok a

/-- `Env.Reset` from the source, with the raw environment's reset and
observe results and the observer passed as oracles; the joiner output is
abstracted since only error flow matters here. -/
def envReset (Obs Vec : Type) (rawReset : Except String Unit)
    (rawObserve : Except String Obs)
    (obsVec : Obs → Except String Vec) : Except String Vec :=
  addCtx "reset" (do
    let _ ← rawReset
    let o ← rawObserve
    obsVec o)

/-- `Env.Step` from the source, same oracles; the raw step yields a
(reward, done) pair on success.  No context annotation is applied. -/
def envStep (Obs Vec : Type) (rawStep : Except String (ℚ × Bool))
    (rawObserve : Except String Obs)
    (obsVec : Obs → Except String Vec) : Except String (Vec × ℚ × Bool) := do
  let rd ← rawStep
  let o ← rawObserve
  let v ← obsVec o
  pure (v, rd.1, rd.2)

/-- Counterexample to claim C8: a raw `Step` failure with message "boom"
is returned by `Env.Step` verbatim, with no operation name prepended. -/
theorem C8_counterexample :
    envStep Unit Unit (Except.error "boom")
      (Except.ok ()) (fun _ => Except.ok ()) = Except.error "boom" ∧
    ("boom" : String) ≠ "step: boom" ∧
    ("boom" : String) ≠ "reset: boom" := by
  refine ⟨rfl, ?_, ?_⟩ <;> decide

/-- Claim C8 (amended): any underlying failure during `Env.Reset` yields
a non-nil error annotated with "reset"; any underlying failure during
`Env.Step` yields a non-nil error, returned without annotation. -/
theorem C8_env_error_context (Obs Vec : Type) (e : String)
    (rawReset : Except String Unit) (rawObserve : Except String Obs)
    (obsVec : Obs → Except String Vec) (rawStep : Except String (ℚ × Bool)) :
    (envReset Obs Vec (Except.error e) rawObserve obsVec =
      Except.error ("reset: " ++ e)) ∧
    (envReset Obs Vec (Except.ok ()) (Except.error e) obsVec =
      Except.error ("reset: " ++ e)) ∧
    (∀ o, rawObserve = Except.ok o → obsVec o = Except.error e →
      envReset Obs Vec (Except.ok ()) rawObserve obsVec =
        Except.error ("reset: " ++ e)) ∧
    (envStep Obs Vec (Except.error e) rawObserve obsVec =
      (Except.error e : Except String (Vec × ℚ × Bool))) ∧
    (∀ r, rawStep = Except.ok r →
      envStep Obs Vec rawStep (Except.error e) obsVec =
        (Except.error e : Except String (Vec × ℚ × Bool))) ∧
    (∀ r o, rawStep = Except.ok r → rawObserve = Except.ok o →
      obsVec o = Except.error e →
      envStep Obs Vec rawStep rawObserve obsVec =
        (Except.error e : Except String (Vec × ℚ × Bool))) := by
  refine ⟨rfl, rfl, ?_, rfl, ?_, ?_⟩
  · intro o ho hv
    rw [ho]
    show addCtx "reset" (obsVec o) = Except.error ("reset: " ++ e)
    rw [hv]
    rfl
  · intro r hr
    rw [hr]
    rfl
  · intro r o hr ho hv
    rw [hr, ho]
    show Except.bind (obsVec o)
      (fun v => Except.pure (v, r.1, r.2)) = Except.error e
    rw [hv]
    rfl

/-- Witness for C8 (amended) at concrete error "io fail". -/
theorem C8_env_error_context_witness :
    envReset Unit Unit (Except.ok ())
      (Except.error "io fail") (fun _ => Except.ok ()) =
      Except.error "reset: io fail" ∧
    envStep Unit Unit (Except.ok (0, false))
      (Except.error "io fail") (fun _ => Except.ok ()) =
      Except.error "io fail" := by
  have h := C8_env_error_context Unit Unit "io fail"
    (Except.ok ()) (Except.error "io fail") (fun _ => Except.ok ())
    (Except.ok (0, false))
  exact ⟨h.2.1, h.2.2.2.2.1 (0, false) rfl⟩

/- ============================================================
   Trainer.Fetch present masks (source: behavior-cloning trainer).

   Go (loop structure; only the present flags are relevant):
     for i := 0; true; i++ {
       var present []bool
       for j, recording := range recordings {
         pres := i < recording.NumSteps()
         present = append(present, pres)
         ...
       }
       if len(inVecs) == 0 { break }   // no recording still present
       inWriter <- &anyseq.Batch{..., Present: present}
       ...
     }
   ============================================================ -/

theorem mem_le_foldr_max (l : List Nat) (n : Nat) (hn : n ∈ l) :
    n ≤ l.foldr max 0 := by
  induction l with
  | nil => simp at hn
  | cons a as ih =>
      rcases List.mem_cons.mp hn with h | h
      · subst h
        simp only [List.foldr_cons]
        omega
      · have := ih h
        simp only [List.foldr_cons]
        omega

/-- The per-step present rows written by `Trainer.Fetch`, as a function of
the recordings' step counts: starting at step `i`, one row per iteration
until no recording is still present. -/
def fetchPresentRows (recs : List Nat) (i : Nat) : List (List Bool) :=
  if h : recs.any (fun n => decide (i < n)) then
    (recs.map (fun n => decide (i < n))) :: fetchPresentRows recs (i + 1)
  else []
termination_by recs.foldr max 0 - i
decreasing_by
  simp only [List.any_eq_true, decide_eq_true_eq] at h
  obtain ⟨n, hn, hin⟩ := h
  have := mem_le_foldr_max recs n hn
  omega

theorem fetchPresentRows_eq (recs : List Nat) (t : Nat) :
    fetchPresentRows recs t =
      (List.range (recs.foldr max 0 - t)).map
        (fun s => recs.map (fun n => decide (t + s < n))) := by
  rw [fetchPresentRows]
  by_cases h : recs.any (fun n => decide (t < n))
  · rw [dif_pos h]
    simp only [List.any_eq_true, decide_eq_true_eq] at h
    obtain ⟨n, hn, htn⟩ := h
    have hmax := mem_le_foldr_max recs n hn
    have hM : t < recs.foldr max 0 := by omega
    have hk : recs.foldr max 0 - t = (recs.foldr max 0 - (t + 1)) + 1 := by
      omega
    rw [hk, List.range_succ_eq_map, List.map_cons, List.map_map]
    have hhead : List.map (fun n => decide (t < n)) recs =
        List.map (fun n => decide (t + 0 < n)) recs := by
      refine List.map_congr_left (fun n _ => ?_)
      norm_num
    have htail : fetchPresentRows recs (t + 1) =
        List.map ((fun s => List.map (fun n => decide (t + s < n)) recs) ∘
          Nat.succ) (List.range (recs.foldr max 0 - (t + 1))) := by
      rw [fetchPresentRows_eq recs (t + 1)]
      refine List.map_congr_left (fun s _ => ?_)
      simp only [Function.comp_apply]
      refine List.map_congr_left (fun n _ => ?_)
      have e : t + Nat.succ s = t + 1 + s := by omega
      rw [e]
    rw [hhead, htail]
  · rw [dif_neg h]
    simp only [List.any_eq_true, decide_eq_true_eq, not_exists, not_and,
      not_lt] at h
    have hle : recs.foldr max 0 ≤ t := by
      clear fetchPresentRows_eq
      induction recs with
      | nil => simp
      | cons a as ih =>
          simp only [List.foldr_cons]
          have h1 := h a (by simp)
          have h2 := ih (fun n hn => h n (by simp [hn]))
          omega
    have : recs.foldr max 0 - t = 0 := by omega
    rw [this]
    rfl
termination_by recs.foldr max 0 - t
decreasing_by
  simp only [List.any_eq_true, decide_eq_true_eq] at h
  obtain ⟨n, hn, hin⟩ := h
  have := mem_le_foldr_max recs n hn
  omega

/-- Claim C7: in a batch built by Trainer.Fetch from a non-empty sample
list, the present flag of sequence j at step i is true exactly when i is
below recording j's step count: rows exist precisely for the steps below
the longest recording, and row i has entry `decide (i < numSteps j)` at
position j. -/
theorem C7_fetch_present_mask (recs : List Nat) (hne : recs ≠ []) :
    (fetchPresentRows recs 0).length = recs.foldr max 0 ∧
    ∀ i j (hi : i < (fetchPresentRows recs 0).length) (hj : j < recs.length),
      ((fetchPresentRows recs 0).get ⟨i, hi⟩).getD j false =
        decide (i < recs.getD j 0) := by
  constructor
  · rw [fetchPresentRows_eq]
    simp
  · intro i j hi hj
    have hlen : (fetchPresentRows recs 0).length = recs.foldr max 0 := by
      rw [fetchPresentRows_eq]
      simp
    have h1 : (fetchPresentRows recs 0).get ⟨i, hi⟩ =
        (fetchPresentRows recs 0).getD i [] := by
      rw [List.getD_eq_getElem _ _ hi, List.get_eq_getElem]
    have hiM : i < recs.foldr max 0 := by
      rw [hlen] at hi
      exact hi
    rw [h1, fetchPresentRows_eq]
    have hi2 : i < ((List.range (recs.foldr max 0 - 0)).map
        (fun s => recs.map (fun n => decide (0 + s < n)))).length := by
      simp
      omega
    rw [List.getD_eq_getElem _ _ hi2, List.getElem_map]
    simp only [List.getElem_range]
    have hjm : j < (recs.map (fun n => decide (0 + i < n))).length := by
      simpa using hj
    rw [List.getD_eq_getElem _ _ hjm, List.getElem_map,
      List.getD_eq_getElem _ _ hj]
    simp

/-- Witness for C7 with recordings of 2 and 1 steps. -/
theorem C7_fetch_present_mask_witness :
    (fetchPresentRows [2, 1] 0).length = 2 ∧
    ((fetchPresentRows [2, 1] 0).getD 1 []).getD 1 false = false := by
  have h := C7_fetch_present_mask [2, 1] (by simp)
  have hlen2 : (fetchPresentRows [2, 1] 0).length = 2 := by
    rw [h.1]
    decide
  refine ⟨hlen2, ?_⟩
  have hi : 1 < (fetchPresentRows [2, 1] 0).length := by
    rw [hlen2]
    decide
  have hgd : (fetchPresentRows [2, 1] 0).getD 1 [] =
      (fetchPresentRows [2, 1] 0).get ⟨1, hi⟩ := List.getD_eq_get _ _ hi
  rw [hgd, h.2 1 1 hi (by decide)]
  rfl

/- ============================================================
   TRPO rollout gathering (source: gatherTRPORollouts / gatherRollouts).

   The Go code fills a token channel with exactly BatchSize tokens,
   closes it, and starts NumParallel workers; each worker consumes
   tokens, produces one successful rollout per token and pushes it onto
   the results channel; the coordinator drains the channel until all
   workers have finished.  The concurrency is modelled by a schedule
   that assigns every token to the worker that consumed it; the result
   multiset is the union over workers of the rollouts of their tokens,
   and the collected count is independent of the interleaving.
   ============================================================ -/

/-- The tokens consumed by worker `w` out of the `B` queued tokens under
a given schedule. -/
def workerTokens (B : Nat) (schedule : Nat → Nat) (w : Nat) : List Nat :=
  (List.range B).filter (fun t => decide (schedule t = w))

/-- All rollouts collected from the result channel: every worker turns
each of its tokens into one successful rollout. -/
def gatherTRPORollouts {α : Type} (B W : Nat) (schedule : Nat → Nat)
    (rollout : Nat → α) : List α :=
  (List.range W).flatMap (fun w => (workerTokens B schedule w).map rollout)

theorem length_flatMap_eq_sum {α β : Type} (l : List β) (g : β → List α) :
    (l.flatMap g).length = (l.map (fun b => (g b).length)).sum := by
  induction l with
  | nil => rfl
  | cons b bs ih => simp [ih]

theorem sum_map_add_nat {β : Type} (l : List β) (g h : β → Nat) :
    (l.map (fun b => g b + h b)).sum = (l.map g).sum + (l.map h).sum := by
  induction l with
  | nil => rfl
  | cons b bs ih =>
      simp only [List.map_cons, List.sum_cons, ih]
      omega

theorem sum_indicator_range (W x : Nat) :
    ((List.range W).map (fun w => if x = w then 1 else 0)).sum =
      if x < W then 1 else 0 := by
  induction W with
  | zero => simp
  | succ n ih =>
      rw [List.range_succ, List.map_append, List.sum_append, ih]
      simp only [List.map_cons, List.map_nil, List.sum_cons, List.sum_nil]
      by_cases h : x = n
      · subst h
        simp
      · have e : (x < n + 1) ↔ (x < n) := by omega
        simp [h, e]

theorem sum_countP_range (W B : Nat) (f : Nat → Nat) (hf : ∀ t, f t < W) :
    ((List.range W).map
      (fun w => (List.range B).countP (fun t => decide (f t = w)))).sum = B := by
  induction B with
  | zero => simp
  | succ n ih =>
      have hcon : ∀ w ∈ List.range W,
          (List.range (n + 1)).countP (fun t => decide (f t = w)) =
            (List.range n).countP (fun t => decide (f t = w)) +
              (if f n = w then 1 else 0) := by
        intro w _
        rw [List.range_succ, List.countP_append]
        congr 1
        simp [List.countP_cons]
      rw [List.map_congr_left hcon, sum_map_add_nat, ih,
        sum_indicator_range W (f n)]
      simp [hf n]

/-- Claim C6: gathering a TRPO batch of BatchSize = B over W >= 1 workers
collects exactly B trajectories, for every schedule of tokens to workers
(i.e. every interleaving), provided every rollout succeeds (`rollout` is
total). -/
theorem C6_gather_batch_size {α : Type} (B W : Nat) (hW : 1 ≤ W)
    (schedule : Nat → Nat) (hsched : ∀ t, schedule t < W)
    (rollout : Nat → α) :
    (gatherTRPORollouts B W schedule rollout).length = B := by
  unfold gatherTRPORollouts
  rw [length_flatMap_eq_sum]
  have hmap : ∀ w ∈ List.range W,
      ((workerTokens B schedule w).map rollout).length =
        (List.range B).countP (fun t => decide (schedule t = w)) := by
    intro w _
    rw [List.length_map, workerTokens,
      ← List.countP_eq_length_filter]
  rw [List.map_congr_left hmap]
  exact sum_countP_range W B schedule hsched

/-- Witness for C6 with B = 3, W = 2 and round-robin scheduling. -/
theorem C6_gather_batch_size_witness :
    (gatherTRPORollouts 3 2 (fun t => t % 2) (fun t => t)).length = 3 :=
  C6_gather_batch_size 3 2 (by omega) (fun t => t % 2)
    (fun t => Nat.mod_lt t (by omega)) (fun t => t)

/- ============================================================
   MouseActor (source: mouse actor with Discrete option menu).

   options() builds 1 + 3*5 offsets: the center (0,0) plus, for each
   radius r in {10, 40, 80} and i in 0..4, the point
   (int(cos(2*pi*i/5)*r), int(sin(2*pi*i/5)*r)) with Go float-to-int
   truncation toward zero.  The list below is that computation evaluated:
   cos/sin of 72/144/216/288 degrees are +-0.30901699/+-0.80901699 and
   +-0.95105651/+-0.58778525, so e.g. r=10 gives (3,9), (-8,5), (-8,-5),
   (3,-9) and the axis point (10,0).
   ============================================================ -/

def options : List (Int × Int) :=
  [(0, 0),
   (10, 0), (3, 9), (-8, 5), (-8, -5), (3, -9),
   (40, 0), (12, 38), (-32, 23), (-32, -23), (12, -38),
   (80, 0), (24, 76), (-64, 47), (-64, -47), (24, -76)]

/-- Squared Euclidean distance from the delta to an option offset.  The
source compares `math.Sqrt` of these values; for sums of squares of
integers in this range the square root is strictly monotone and never
rounds two distinct sums to the same float, so the loop's comparisons
agree with comparisons of the squared distances. -/
def sqDist (dx dy : Int) (o : Int × Int) : Int :=
  (dx - o.1) ^ 2 + (dy - o.2) ^ 2

/-- Comparison with the running best distance; `none` is the initial
`math.Inf(1)`, which every distance beats. -/
def ltOptD (d : Int) : Option Int → Bool
  | none => true
  | some b => decide (d < b)

/-- The loop of `closestOption`: scan the options in order keeping the
first index attaining the strictly smallest distance. -/
def closestLoop (dx dy : Int) :
    List (Int × Int) → Nat → Nat → Option Int → Nat
  | [], _, best, _ => best
  | o :: rest, i, best, bestD =>
    if ltOptD (sqDist dx dy o) bestD then
      closestLoop dx dy rest (i + 1) i (some (sqDist dx dy o))
    else
      closestLoop dx dy rest (i + 1) best bestD

/-- `MouseActor.closestOption` from the source. -/
def closestOption (dx dy : Int) : Nat :=
  closestLoop dx dy options 0 0 none

structure MouseConfig where
  Width : Int
  Height : Int
  NoHold : Bool
  Discrete : Bool

structure MouseState where
  pressed : Bool
  lastX : Int
  lastY : Int
deriving DecidableEq, Repr

/-- `MouseActor.Reset` from the source. -/
def mouseActorReset (m : MouseConfig) : MouseState :=
  ⟨false, m.Width / 2, m.Height / 2⟩

/-- `essentials.Round` followed by Go `int(...)`: round half away from
zero (the argument of `Round` is always cast exactly). -/
def goRound (x : ℚ) : Int :=
  if x < 0 then ⌈x - 1/2⌉ else ⌊x + 1/2⌋

/-- First index with a nonzero component, as scanned by the Discrete
branch of `mouseCoords`. -/
def firstNonzeroIdx : List ℚ → Option Nat
  | [] => none
  | v :: vs => if v ≠ 0 then some 0 else (firstNonzeroIdx vs).map (· + 1)

/-- `MouseActor.mouseCoords` from the source; `vec` is the slice after
the press component.  In the Discrete branch the Go loop leaves x, y at
their zero values when every component is zero; `options()[i]` is
modelled with `getD` (the Go code indexes the 16-element menu). -/
def mouseCoords (m : MouseConfig) (s : MouseState) (vec : List ℚ) :
    Int × Int :=
  let xy : Int × Int :=
    if m.Discrete then
      match firstNonzeroIdx vec with
      | some i =>
          let o := options.getD i (0, 0)
          (s.lastX + o.1, s.lastY + o.2)
      | none => (0, 0)
    else
      (s.lastX + goRound ((m.Width : ℚ) * vec.getD 0 0 / 4),
       s.lastY + goRound ((m.Height : ℚ) * vec.getD 1 0 / 4))
  (max 0 (min (m.Width - 1) xy.1), max 0 (min (m.Height - 1) xy.2))

inductive MouseEventType where
  | mouseMoved : MouseEventType
  | mousePressed : MouseEventType
  | mouseReleased : MouseEventType
deriving DecidableEq, Repr

structure MouseEvent where
  type : MouseEventType
  x : Int
  y : Int
  leftButton : Bool
  clickCount : Nat
deriving DecidableEq, Repr

/-- `MouseActor.Events` from the source: the press/release block comes
first (emitting at the previous cursor position and updating `pressed`
in the hold case), then the move block emits a `MouseMoved` at the new
clamped coordinates and updates the stored position when it changed. -/
def mouseActorEvents (m : MouseConfig) (s : MouseState) (vec : List ℚ) :
    List MouseEvent × MouseState :=
  let press := decide ((1 : ℚ)/2 < vec.getD 0 0)
  let xy := mouseCoords m s vec.tail
  let pr : List MouseEvent × Bool :=
    if m.NoHold && press then
      ([⟨.mousePressed, s.lastX, s.lastY, true, 1⟩,
        ⟨.mouseReleased, s.lastX, s.lastY, true, 1⟩], s.pressed)
    else if !m.NoHold && press != s.pressed then
      ([⟨if press then .mousePressed else .mouseReleased,
        s.lastX, s.lastY, true, 1⟩], press)
    else ([], s.pressed)
  let mv : List MouseEvent × Int × Int :=
    if xy.1 ≠ s.lastX ∨ xy.2 ≠ s.lastY then
      ([⟨.mouseMoved, xy.1, xy.2, pr.2, 0⟩], xy.1, xy.2)
    else ([], s.lastX, s.lastY)
  (pr.1 ++ mv.1, ⟨pr.2, mv.2.1, mv.2.2⟩)

/-- The event scan of `MouseActor.Vectorize`: every mouse event updates
newX/newY; a press sets `pressed` and, under NoHold, stops the scan; a
release clears `pressed` when holding is allowed. -/
def vecScan (noHold : Bool) : List MouseEvent → Bool → Int → Int →
    Bool × Int × Int
  | [], pressed, nx, ny => (pressed, nx, ny)
  | e :: rest, pressed, nx, ny =>
    let nx2 := e.x
    let ny2 := e.y
    if e.type = .mousePressed then
      if noHold then (true, nx2, ny2)
      else vecScan noHold rest true nx2 ny2
    else if !noHold && e.type = .mouseReleased then
      vecScan noHold rest false nx2 ny2
    else
      vecScan noHold rest pressed nx2 ny2

/-- `MouseActor.Vectorize` from the source (Discrete variant builds a
one-hot over the option menu at `1 + closestOption(delta)`; index 0 is
set when the scan ends pressed). -/
def mouseActorVectorize (m : MouseConfig) (s : MouseState)
    (evts : List MouseEvent) : List ℚ × MouseState :=
  let r := vecScan m.NoHold evts s.pressed s.lastX s.lastY
  let newX := r.2.1
  let newY := r.2.2
  let base : List ℚ :=
    if m.Discrete then
      (List.range (1 + options.length)).map (fun i =>
        if i = 1 + closestOption (newX - s.lastX) (newY - s.lastY) then 1
        else 0)
    else
      [0, 4 * ((newX - s.lastX : Int) : ℚ) / (m.Width : ℚ),
        4 * ((newY - s.lastY : Int) : ℚ) / (m.Height : ℚ)]
  (if r.1 then base.set 0 1 else base, ⟨r.1, newX, newY⟩)

/-- Running the actor from Reset over a sequence of action vectors,
collecting every emitted event. -/
def mouseActorRun (m : MouseConfig) :
    List (List ℚ) → MouseState → List MouseEvent × MouseState
  | [], s => ([], s)
  | v :: vs, s =>
    let r := mouseActorEvents m s v
    let rest := mouseActorRun m vs r.2
    (r.1 ++ rest.1, rest.2)

def eventInBounds (m : MouseConfig) (e : MouseEvent) : Prop :=
  0 ≤ e.x ∧ e.x ≤ m.Width - 1 ∧ 0 ≤ e.y ∧ e.y ≤ m.Height - 1

def stateInBounds (m : MouseConfig) (s : MouseState) : Prop :=
  0 ≤ s.lastX ∧ s.lastX ≤ m.Width - 1 ∧ 0 ≤ s.lastY ∧ s.lastY ≤ m.Height - 1

theorem clamp_mem (W t : Int) (hW : 1 ≤ W) :
    0 ≤ max 0 (min (W - 1) t) ∧ max 0 (min (W - 1) t) ≤ W - 1 := by
  constructor
  · exact le_max_left 0 _
  · exact max_le (by omega) (min_le_left _ _)

theorem mouseCoords_bounds (m : MouseConfig) (s : MouseState) (vec : List ℚ)
    (hW : 1 ≤ m.Width) (hH : 1 ≤ m.Height) :
    0 ≤ (mouseCoords m s vec).1 ∧ (mouseCoords m s vec).1 ≤ m.Width - 1 ∧
    0 ≤ (mouseCoords m s vec).2 ∧ (mouseCoords m s vec).2 ≤ m.Height - 1 := by
  unfold mouseCoords
  exact ⟨(clamp_mem _ _ hW).1, (clamp_mem _ _ hW).2,
    (clamp_mem _ _ hH).1, (clamp_mem _ _ hH).2⟩

theorem mouseActorEvents_lastPos (m : MouseConfig) (s : MouseState)
    (vec : List ℚ) :
    (mouseActorEvents m s vec).2.lastX = (mouseCoords m s vec.tail).1 ∧
    (mouseActorEvents m s vec).2.lastY = (mouseCoords m s vec.tail).2 := by
  simp only [mouseActorEvents]
  by_cases h : (mouseCoords m s vec.tail).1 ≠ s.lastX ∨
      (mouseCoords m s vec.tail).2 ≠ s.lastY
  · rw [if_pos h]
    exact ⟨rfl, rfl⟩
  · rw [if_neg h]
    push_neg at h
    exact ⟨h.1.symm, h.2.symm⟩

theorem mouseActorEvents_mem (m : MouseConfig) (s : MouseState)
    (vec : List ℚ) (e : MouseEvent)
    (he : e ∈ (mouseActorEvents m s vec).1) :
    (e.x = s.lastX ∧ e.y = s.lastY) ∨
    (e.x = (mouseCoords m s vec.tail).1 ∧
      e.y = (mouseCoords m s vec.tail).2) := by
  simp only [mouseActorEvents] at he
  rw [List.mem_append] at he
  rcases he with he | he
  · left
    by_cases h1 : m.NoHold && decide ((1 : ℚ)/2 < vec.getD 0 0)
    · rw [if_pos h1] at he
      simp only [List.mem_cons, List.mem_singleton, List.not_mem_nil,
        or_false] at he
      rcases he with he | he <;> (subst he; exact ⟨rfl, rfl⟩)
    · rw [if_neg h1] at he
      by_cases h2 : !m.NoHold &&
          (decide ((1 : ℚ)/2 < vec.getD 0 0) != s.pressed)
      · rw [if_pos h2] at he
        simp only [List.mem_singleton, List.not_mem_nil, List.mem_cons,
          or_false] at he
        subst he
        exact ⟨rfl, rfl⟩
      · rw [if_neg h2] at he
        simp at he
  · by_cases h3 : (mouseCoords m s vec.tail).1 ≠ s.lastX ∨
        (mouseCoords m s vec.tail).2 ≠ s.lastY
    · rw [if_pos h3] at he
      simp only [List.mem_singleton, List.not_mem_nil, List.mem_cons,
        or_false] at he
      subst he
      right
      exact ⟨rfl, rfl⟩
    · rw [if_neg h3] at he
      simp at he

theorem mouseActorEvents_bounds (m : MouseConfig) (hW : 1 ≤ m.Width)
    (hH : 1 ≤ m.Height) (s : MouseState) (vec : List ℚ)
    (hs : stateInBounds m s) :
    (∀ e ∈ (mouseActorEvents m s vec).1, eventInBounds m e) ∧
    stateInBounds m (mouseActorEvents m s vec).2 := by
  obtain ⟨hs1, hs2, hs3, hs4⟩ := hs
  obtain ⟨hc1, hc2, hc3, hc4⟩ := mouseCoords_bounds m s vec.tail hW hH
  obtain ⟨hp1, hp2⟩ := mouseActorEvents_lastPos m s vec
  constructor
  · intro e he
    rcases mouseActorEvents_mem m s vec e he with ⟨hx, hy⟩ | ⟨hx, hy⟩ <;>
      exact ⟨by omega, by omega, by omega, by omega⟩
  · exact ⟨by omega, by omega, by omega, by omega⟩

theorem mouseActorRun_bounds (m : MouseConfig) (hW : 1 ≤ m.Width)
    (hH : 1 ≤ m.Height) (vecs : List (List ℚ)) (s : MouseState)
    (hs : stateInBounds m s) :
    (∀ e ∈ (mouseActorRun m vecs s).1, eventInBounds m e) ∧
    stateInBounds m (mouseActorRun m vecs s).2 := by
  induction vecs generalizing s with
  | nil => exact ⟨by simp [mouseActorRun], hs⟩
  | cons v vs ih =>
      obtain ⟨hstep, hsstep⟩ := mouseActorEvents_bounds m hW hH s v hs
      obtain ⟨hrest, hsrest⟩ := ih _ hsstep
      refine ⟨?_, hsrest⟩
      intro e he
      simp only [mouseActorRun, List.mem_append] at he
      rcases he with he | he
      · exact hstep e he
      · exact hrest e he

theorem mouseActorReset_bounds (m : MouseConfig) (hW : 1 ≤ m.Width)
    (hH : 1 ≤ m.Height) : stateInBounds m (mouseActorReset m) := by
  unfold stateInBounds mouseActorReset
  simp only
  omega

theorem mouseCoords_discrete_eq (m : MouseConfig) (s : MouseState)
    (vec : List ℚ) (hd : m.Discrete = true) (i : Nat)
    (hi : firstNonzeroIdx vec = some i) :
    mouseCoords m s vec =
      (max 0 (min (m.Width - 1) (s.lastX + (options.getD i (0, 0)).1)),
       max 0 (min (m.Height - 1) (s.lastY + (options.getD i (0, 0)).2))) := by
  simp [mouseCoords, hd, hi]

theorem mouseCoords_gaussian_eq (m : MouseConfig) (s : MouseState)
    (vec : List ℚ) (hd : m.Discrete = false) :
    mouseCoords m s vec =
      (max 0 (min (m.Width - 1)
        (s.lastX + goRound ((m.Width : ℚ) * vec.getD 0 0 / 4))),
       max 0 (min (m.Height - 1)
        (s.lastY + goRound ((m.Height : ℚ) * vec.getD 1 0 / 4)))) := by
  simp [mouseCoords, hd]

/-- Claim C9: after Reset and any sequence of Events calls, every emitted
mouse event has coordinates inside the screen bounds, and the stored
cursor position after each call equals the previous position plus the
movement delta (Gaussian-scaled or discrete-option offset), clamped to
[0, Width-1] x [0, Height-1]. -/
theorem C9_mouse_bounds (m : MouseConfig) (hW : 1 ≤ m.Width)
    (hH : 1 ≤ m.Height) :
    stateInBounds m (mouseActorReset m) ∧
    (∀ vecs, ∀ e ∈ (mouseActorRun m vecs (mouseActorReset m)).1,
      eventInBounds m e) ∧
    (∀ (s : MouseState) (vec : List ℚ), m.Discrete = false →
      (mouseActorEvents m s vec).2.lastX =
        max 0 (min (m.Width - 1)
          (s.lastX + goRound ((m.Width : ℚ) * vec.tail.getD 0 0 / 4))) ∧
      (mouseActorEvents m s vec).2.lastY =
        max 0 (min (m.Height - 1)
          (s.lastY + goRound ((m.Height : ℚ) * vec.tail.getD 1 0 / 4)))) ∧
    (∀ (s : MouseState) (vec : List ℚ) (i : Nat), m.Discrete = true →
      firstNonzeroIdx vec.tail = some i →
      (mouseActorEvents m s vec).2.lastX =
        max 0 (min (m.Width - 1) (s.lastX + (options.getD i (0, 0)).1)) ∧
      (mouseActorEvents m s vec).2.lastY =
        max 0 (min (m.Height - 1) (s.lastY + (options.getD i (0, 0)).2))) := by
  refine ⟨mouseActorReset_bounds m hW hH, ?_, ?_, ?_⟩
  · intro vecs
    exact (mouseActorRun_bounds m hW hH vecs _
      (mouseActorReset_bounds m hW hH)).1
  · intro s vec hd
    obtain ⟨hp1, hp2⟩ := mouseActorEvents_lastPos m s vec
    rw [hp1, hp2, mouseCoords_gaussian_eq m s vec.tail hd]
    exact ⟨rfl, rfl⟩
  · intro s vec i hd hi
    obtain ⟨hp1, hp2⟩ := mouseActorEvents_lastPos m s vec
    rw [hp1, hp2, mouseCoords_discrete_eq m s vec.tail hd i hi]
    exact ⟨rfl, rfl⟩

/-- Witness for C9 on a 100x100 screen: the discrete option 11 has
offset (80, 0), so a step from the center lands clamped at x = 99. -/
theorem C9_mouse_bounds_witness :
    stateInBounds ⟨100, 100, false, true⟩
      (mouseActorReset ⟨100, 100, false, true⟩) ∧
    (mouseActorEvents ⟨100, 100, false, true⟩ ⟨false, 50, 50⟩
      ([0] ++ (List.range 16).map
        (fun i => if i = 11 then (1 : ℚ) else 0))).2.lastX = 99 := by
  have h := C9_mouse_bounds ⟨100, 100, false, true⟩ (by decide) (by decide)
  refine ⟨h.1, ?_⟩
  have h4 := (h.2.2.2 ⟨false, 50, 50⟩
    ([0] ++ (List.range 16).map (fun i => if i = 11 then (1 : ℚ) else 0))
    11 rfl (by decide)).1
  rw [h4]
  decide

theorem closestLoop_spec (dx dy : Int) (L : List (Int × Int)) (hL : L ≠ [])
    (l : List (Int × Int)) (i best : Nat) (bestD : Option Int)
    (hdrop : L.drop i = l)
    (hinv : (bestD = none ∧ i = 0 ∧ best = 0) ∨
      (∃ b, bestD = some b ∧ best < i ∧ best < L.length ∧
        b = sqDist dx dy (L.getD best (0, 0)) ∧
        (∀ j, j < i → b ≤ sqDist dx dy (L.getD j (0, 0))) ∧
        (∀ j, j < best → b < sqDist dx dy (L.getD j (0, 0))))) :
    closestLoop dx dy l i best bestD < L.length ∧
    (∀ j, j < L.length →
      sqDist dx dy (L.getD (closestLoop dx dy l i best bestD) (0, 0)) ≤
        sqDist dx dy (L.getD j (0, 0))) ∧
    (∀ j, j < closestLoop dx dy l i best bestD →
      sqDist dx dy (L.getD (closestLoop dx dy l i best bestD) (0, 0)) <
        sqDist dx dy (L.getD j (0, 0))) := by
  induction l generalizing i best bestD with
  | nil =>
      have hlen : L.length ≤ i := List.drop_eq_nil_iff.mp hdrop
      rcases hinv with ⟨_, hi0, _⟩ | ⟨b, hb, hbi, hbL, hbeq, hble, hblt⟩
      · subst hi0
        exact absurd (List.length_eq_zero.mp (by omega)) hL
      · simp only [closestLoop]
        refine ⟨hbL, ?_, ?_⟩
        · intro j hj
          rw [← hbeq]
          exact hble j (by omega)
        · intro j hj
          rw [← hbeq]
          exact hblt j hj
  | cons o rest ih =>
      have hiL : i < L.length := by
        by_contra hge
        push_neg at hge
        rw [List.drop_eq_nil_iff.mpr hge] at hdrop
        exact List.noConfusion hdrop
      have hdlen : 0 < (L.drop i).length := by
        rw [hdrop]
        simp
      have ho : o = L.getD i (0, 0) := by
        have h0 : (L.drop i).getD 0 (0, 0) = o := by
          rw [hdrop]
          rfl
        rw [← h0, List.getD_eq_getElem _ _ hdlen, List.getElem_drop,
          List.getD_eq_getElem _ _ (by omega)]
        simp
      have hdrop2 : L.drop (i + 1) = rest := by
        rw [← List.tail_drop, hdrop]
        rfl
      simp only [closestLoop]
      by_cases hlt : ltOptD (sqDist dx dy o) bestD
      · rw [if_pos hlt]
        refine ih (i + 1) i (some (sqDist dx dy o)) hdrop2 (Or.inr ?_)
        refine ⟨sqDist dx dy o, rfl, by omega, hiL, by rw [ho], ?_, ?_⟩
        · intro j hj
          by_cases hji : j = i
          · subst hji
            rw [← ho]
          · rcases hinv with ⟨_, hi0, _⟩ | ⟨b, hb, hbi, hbL, hbeq, hble, hblt⟩
            · omega
            · rw [hb] at hlt
              simp only [ltOptD, decide_eq_true_eq] at hlt
              have := hble j (by omega)
              omega
        · intro j hj
          rcases hinv with ⟨_, hi0, _⟩ | ⟨b, hb, hbi, hbL, hbeq, hble, hblt⟩
          · omega
          · rw [hb] at hlt
            simp only [ltOptD, decide_eq_true_eq] at hlt
            have := hble j (by omega)
            omega
      · rw [if_neg hlt]
        rcases hinv with ⟨hnone, hi0, hb0⟩ | ⟨b, hb, hbi, hbL, hbeq, hble, hblt⟩
        · rw [hnone] at hlt
          exact absurd rfl hlt
        · rw [hb]
          rw [hb] at hlt
          simp only [ltOptD, decide_eq_true_eq] at hlt
          refine ih (i + 1) best (some b) hdrop2 (Or.inr ?_)
          refine ⟨b, rfl, by omega, hbL, hbeq, ?_, hblt⟩
          intro j hj
          by_cases hji : j = i
          · subst hji
            rw [← ho]
            omega
          · exact hble j (by omega)

theorem closestOption_spec (dx dy : Int) :
    closestOption dx dy < options.length ∧
    (∀ j, j < options.length →
      sqDist dx dy (options.getD (closestOption dx dy) (0, 0)) ≤
        sqDist dx dy (options.getD j (0, 0))) ∧
    (∀ j, j < closestOption dx dy →
      sqDist dx dy (options.getD (closestOption dx dy) (0, 0)) <
        sqDist dx dy (options.getD j (0, 0))) :=
  closestLoop_spec dx dy options (by decide) options 0 0 none
    (List.drop_zero options) (Or.inl ⟨rfl, rfl, rfl⟩)

theorem firstNonzeroIdx_range_map (c : Nat) :
    ∀ (n s : Nat),
    firstNonzeroIdx ((List.range' s n).map
      (fun i => if i = c then (1 : ℚ) else 0)) =
      if s ≤ c ∧ c < s + n then some (c - s) else none := by
  intro n
  induction n with
  | zero =>
      intro s
      rw [if_neg (by omega)]
      rfl
  | succ n ih =>
      intro s
      rw [List.range'_succ, List.map_cons]
      simp only [firstNonzeroIdx]
      by_cases hs : s = c
      · subst hs
        rw [if_pos rfl, if_pos (by norm_num), if_pos (by omega)]
        simp
      · have hv : (if s = c then (1 : ℚ) else 0) = 0 := if_neg hs
        rw [hv, if_neg (show ¬((0 : ℚ) ≠ 0) from by simp), ih (s + 1)]
        by_cases h2 : s + 1 ≤ c ∧ c < s + 1 + n
        · rw [if_pos h2,
            if_pos (show s ≤ c ∧ c < s + (n + 1) from by omega)]
          have e : c - (s + 1) + 1 = c - s := by omega
          show some (c - (s + 1) + 1) = some (c - s)
          rw [e]
        · rw [if_neg h2,
            if_neg (show ¬(s ≤ c ∧ c < s + (n + 1)) from by omega)]
          rfl

/-- The one-hot action vector selecting discrete option `c` (press
component 0 is zero). -/
def onehotVec (c : Nat) : List ℚ :=
  (List.range (1 + options.length)).map
    (fun i => if i = 1 + c then 1 else 0)

theorem onehotVec_head (c : Nat) : (onehotVec c).getD 0 0 = 0 := by
  unfold onehotVec
  rw [List.range_eq_range', show 1 + options.length = 16 + 1 from rfl,
    List.range'_succ, List.map_cons]
  simp only [List.getD_cons_zero]
  rw [if_neg (by omega)]

theorem onehotVec_tail_firstNonzero (c : Nat) (hc : c < 16) :
    firstNonzeroIdx (onehotVec c).tail = some c := by
  unfold onehotVec
  rw [List.range_eq_range', show 1 + options.length = 16 + 1 from rfl,
    List.range'_succ, List.map_cons, List.tail_cons,
    firstNonzeroIdx_range_map (1 + c) 16 1, if_pos (by omega)]
  congr 1
  omega

theorem closestOption_self (c : Nat) (hc : c < 16) :
    closestOption (options.getD c (0, 0)).1 (options.getD c (0, 0)).2 = c := by
  have h : ∀ d : Fin 16, closestOption (options.getD d.val (0, 0)).1
      (options.getD d.val (0, 0)).2 = d.val := by decide
  exact h ⟨c, hc⟩

theorem options_center_unique (c : Nat) (hc : c < 16)
    (h : options.getD c (0, 0) = (0, 0)) : c = 0 := by
  have hall : ∀ d : Fin 16, options.getD d.val (0, 0) = (0, 0) → d.val = 0 := by
    decide
  exact hall ⟨c, hc⟩ h

theorem mouseActorEvents_nopress (m : MouseConfig) (s : MouseState)
    (vec : List ℚ) (hpress : decide ((1 : ℚ)/2 < vec.getD 0 0) = false)
    (hp : s.pressed = false) :
    mouseActorEvents m s vec =
      (if (mouseCoords m s vec.tail).1 ≠ s.lastX ∨
          (mouseCoords m s vec.tail).2 ≠ s.lastY then
        ([⟨.mouseMoved, (mouseCoords m s vec.tail).1,
          (mouseCoords m s vec.tail).2, false, 0⟩],
          ⟨false, (mouseCoords m s vec.tail).1,
            (mouseCoords m s vec.tail).2⟩)
      else ([], ⟨false, s.lastX, s.lastY⟩)) := by
  simp only [mouseActorEvents, hpress, hp, Bool.and_false, Bool.bne_false,
    Bool.false_eq_true, if_false, bne_self_eq_false]
  by_cases h : (mouseCoords m s vec.tail).1 ≠ s.lastX ∨
      (mouseCoords m s vec.tail).2 ≠ s.lastY
  · rw [if_pos h, if_pos h]
    rfl
  · rw [if_neg h, if_neg h]
    rfl

theorem mouseActorVectorize_moved_disc (m : MouseConfig) (s : MouseState)
    (hd : m.Discrete = true) (hp : s.pressed = false) (X Y : Int) :
    mouseActorVectorize m s [⟨.mouseMoved, X, Y, false, 0⟩] =
      ((List.range (1 + options.length)).map (fun i =>
        if i = 1 + closestOption (X - s.lastX) (Y - s.lastY) then 1 else 0),
        ⟨false, X, Y⟩) := by
  have hscan : vecScan m.NoHold [⟨.mouseMoved, X, Y, false, 0⟩]
      s.pressed s.lastX s.lastY = (false, X, Y) := by
    rw [hp]
    simp [vecScan]
  simp only [mouseActorVectorize, hscan, hd]
  rfl

theorem mouseActorVectorize_nil_disc (m : MouseConfig) (s : MouseState)
    (hd : m.Discrete = true) (hp : s.pressed = false) :
    mouseActorVectorize m s [] =
      ((List.range (1 + options.length)).map (fun i =>
        if i = 1 + closestOption (s.lastX - s.lastX) (s.lastY - s.lastY)
        then 1 else 0),
        ⟨false, s.lastX, s.lastY⟩) := by
  have hscan : vecScan m.NoHold [] s.pressed s.lastX s.lastY =
      (false, s.lastX, s.lastY) := by
    rw [hp]
    rfl
  simp only [mouseActorVectorize, hscan, hd]
  rfl

theorem mouse_roundtrip (m : MouseConfig) (s : MouseState) (c : Nat)
    (hd : m.Discrete = true) (hp : s.pressed = false) (hc : c < 16)
    (hx1 : 0 ≤ s.lastX + (options.getD c (0, 0)).1)
    (hx2 : s.lastX + (options.getD c (0, 0)).1 ≤ m.Width - 1)
    (hy1 : 0 ≤ s.lastY + (options.getD c (0, 0)).2)
    (hy2 : s.lastY + (options.getD c (0, 0)).2 ≤ m.Height - 1) :
    mouseActorVectorize m s (mouseActorEvents m s (onehotVec c)).1 =
      (onehotVec c,
        ⟨false, s.lastX + (options.getD c (0, 0)).1,
          s.lastY + (options.getD c (0, 0)).2⟩) := by
  have hpress : decide ((1 : ℚ)/2 < (onehotVec c).getD 0 0) = false := by
    rw [onehotVec_head]
    simp only [decide_eq_false_iff_not, not_lt]
    norm_num
  have hxy : mouseCoords m s (onehotVec c).tail =
      (s.lastX + (options.getD c (0, 0)).1,
        s.lastY + (options.getD c (0, 0)).2) := by
    rw [mouseCoords_discrete_eq m s _ hd c (onehotVec_tail_firstNonzero c hc)]
    rw [min_eq_right hx2, max_eq_right hx1, min_eq_right hy2,
      max_eq_right hy1]
  have hev := mouseActorEvents_nopress m s (onehotVec c) hpress hp
  rw [hxy] at hev
  by_cases hzero : options.getD c (0, 0) = (0, 0)
  · have hc0 : c = 0 := options_center_unique c hc hzero
    subst hc0
    have hcond : ¬(s.lastX + (options.getD 0 (0, 0)).1 ≠ s.lastX ∨
        s.lastY + (options.getD 0 (0, 0)).2 ≠ s.lastY) := by
      rw [hzero]
      simp
    rw [if_neg hcond] at hev
    have hev1 : (mouseActorEvents m s (onehotVec 0)).1 = [] := by
      rw [hev]
    rw [hev1, mouseActorVectorize_nil_disc m s hd hp, Int.sub_self,
      Int.sub_self]
    have hclosest : closestOption 0 0 = 0 := by decide
    rw [hclosest, hzero]
    simp [onehotVec]
  · have hcond : (s.lastX + (options.getD c (0, 0)).1 ≠ s.lastX ∨
        s.lastY + (options.getD c (0, 0)).2 ≠ s.lastY) := by
      by_contra hno
      push_neg at hno
      refine hzero ?_
      have h1 : (options.getD c (0, 0)).1 = 0 := by omega
      have h2 : (options.getD c (0, 0)).2 = 0 := by omega
      calc options.getD c (0, 0)
          = ((options.getD c (0, 0)).1, (options.getD c (0, 0)).2) := rfl
        _ = (0, 0) := by rw [h1, h2]
    rw [if_pos hcond] at hev
    have hev1 : (mouseActorEvents m s (onehotVec c)).1 =
        [⟨.mouseMoved, s.lastX + (options.getD c (0, 0)).1,
          s.lastY + (options.getD c (0, 0)).2, false, 0⟩] := by
      rw [hev]
    rw [hev1, mouseActorVectorize_moved_disc m s hd hp]
    have hd1 : s.lastX + (options.getD c (0, 0)).1 - s.lastX =
        (options.getD c (0, 0)).1 := by omega
    have hd2 : s.lastY + (options.getD c (0, 0)).2 - s.lastY =
        (options.getD c (0, 0)).2 := by omega
    rw [hd1, hd2, closestOption_self c hc]
    rfl

/-- Claim C5: the discrete option menu has exactly 16 offsets (the
center first, then 3 rings of 5 points at radii 10, 40, 80), and the
Vectorize-after-Events round trip selects the menu option nearest in
Euclidean distance to the true cursor delta, ties broken in favor of the
first option in enumeration order (earlier options are strictly closer
than any later equally-distant one is never chosen). -/
theorem C5_mouse_discrete_menu :
    options.length = 16 ∧
    options.getD 0 (0, 0) = (0, 0) ∧
    (∀ dx dy : Int,
      closestOption dx dy < 16 ∧
      (∀ j, j < 16 →
        sqDist dx dy (options.getD (closestOption dx dy) (0, 0)) ≤
          sqDist dx dy (options.getD j (0, 0))) ∧
      (∀ j, j < closestOption dx dy →
        sqDist dx dy (options.getD (closestOption dx dy) (0, 0)) <
          sqDist dx dy (options.getD j (0, 0)))) ∧
    (∀ (m : MouseConfig) (s : MouseState) (c : Nat),
      m.Discrete = true → s.pressed = false → c < 16 →
      0 ≤ s.lastX + (options.getD c (0, 0)).1 →
      s.lastX + (options.getD c (0, 0)).1 ≤ m.Width - 1 →
      0 ≤ s.lastY + (options.getD c (0, 0)).2 →
      s.lastY + (options.getD c (0, 0)).2 ≤ m.Height - 1 →
      mouseActorVectorize m s (mouseActorEvents m s (onehotVec c)).1 =
        (onehotVec c,
          ⟨false, s.lastX + (options.getD c (0, 0)).1,
            s.lastY + (options.getD c (0, 0)).2⟩)) := by
  refine ⟨by decide, by decide, ?_, ?_⟩
  · intro dx dy
    have h := closestOption_spec dx dy
    exact ⟨by simpa using h.1, fun j hj => h.2.1 j (by simpa using hj),
      h.2.2⟩
  · intro m s c hd hp hc hx1 hx2 hy1 hy2
    exact mouse_roundtrip m s c hd hp hc hx1 hx2 hy1 hy2

/-- Witness for C5: the concrete delta (7, 2) and the round trip through
option 2 (offset (3, 9)) from cursor (50, 50) on a 100x100 screen. -/
theorem C5_mouse_discrete_menu_witness :
    closestOption 7 2 < 16 ∧
    sqDist 7 2 (options.getD (closestOption 7 2) (0, 0)) ≤
      sqDist 7 2 (options.getD 0 (0, 0)) ∧
    mouseActorVectorize ⟨100, 100, false, true⟩ ⟨false, 50, 50⟩
      (mouseActorEvents ⟨100, 100, false, true⟩ ⟨false, 50, 50⟩
        (onehotVec 2)).1 =
      (onehotVec 2, ⟨false, 53, 59⟩) := by
  have h := C5_mouse_discrete_menu
  refine ⟨(h.2.2.1 7 2).1, (h.2.2.1 7 2).2.1 0 (by decide), ?_⟩
  have hr := h.2.2.2 ⟨100, 100, false, true⟩ ⟨false, 50, 50⟩ 2 rfl rfl
    (by decide) (by decide) (by decide) (by decide) (by decide)
  rw [hr]
  rfl
